import Mathlib

set_option maxHeartbeats 1000000

namespace GH

/- Shallow embedding of FORCOLAB-UofT/GitHubAPI-Crawler.

Part 1 embeds `parse_diff` from src/fetch_raw_diff.py.  Python strings are
modelled as `List Char`.  The CPython primitives the function relies on
(`str.strip`, `str.split(sep)`, `str.splitlines`, `int(str)`, and
`re.split` over the hunk-header pattern) are embedded explicitly, and the
mid-`try` exception semantics of the hunk loop (mutations performed before
an exception are kept) are made explicit in `processHunk`. -/

/-- The six ASCII whitespace characters stripped by `str.strip`. -/
def isPyWs (c : Char) : Bool :=
  c == ' ' || c == '\t' || c == '\n' || c == '\r' || c == '\x0b' || c == '\x0c'

/-- Leading part of `str.strip`: drop leading whitespace. -/
def stripFront (l : List Char) : List Char := l.dropWhile isPyWs

/-- Trailing part of `str.strip`: drop trailing whitespace. -/
def stripBack (l : List Char) : List Char := (l.reverse.dropWhile isPyWs).reverse

/-- Python `str.strip()`. -/
def pyStrip (l : List Char) : List Char := stripBack (stripFront l)

/-- Python `str.split(sep)` with an explicit one-character separator:
consecutive separators produce empty fields and the result is never empty. -/
def pySplitOn (sep : Char) : List Char → List (List Char)
  | [] => [[]]
  | c :: cs =>
    if c = sep then [] :: pySplitOn sep cs
    else
      match pySplitOn sep cs with
      | [] => [[c]]
      | p :: ps => (c :: p) :: ps

/-- Line-break characters recognised by `str.splitlines`. -/
def isLineBreakChar (c : Char) : Bool :=
  c == '\n' || c == '\r' || c == '\x0b' || c == '\x0c' ||
  c == '\x1c' || c == '\x1d' || c == '\x1e' || c == '\u0085' ||
  c == ' ' || c == ' '

/-- Normalise all line breaks to a single linefeed, treating CR LF as one break. -/
def normNl : List Char → List Char
  | '\r' :: '\n' :: cs => '\n' :: normNl cs
  | c :: cs => (if isLineBreakChar c then '\n' else c) :: normNl cs
  | [] => []

/-- Python `str.splitlines()`: split at line breaks, with no trailing empty line. -/
def pySplitlines (l : List Char) : List (List Char) :=
  let segs := pySplitOn '\n' (normNl l)
  match segs.getLast? with
  | some [] => segs.dropLast
  | _ => segs

/-- Value of a string of decimal digits. -/
def digitsVal (l : List Char) : Nat :=
  l.foldl (fun n c => n * 10 + (c.toNat - 48)) 0

/-- Python `int(str)` on ASCII decimal literals: surrounding whitespace is
allowed, then an optional sign, then at least one digit; `none` models the
`ValueError` raised otherwise. -/
def pyInt (s : List Char) : Option Int :=
  match pyStrip s with
  | [] => none
  | c :: cs =>
    if c = '-' then
      if cs ≠ [] ∧ cs.all (fun d => d.isDigit) then some (-(digitsVal cs : Int)) else none
    else if c = '+' then
      if cs ≠ [] ∧ cs.all (fun d => d.isDigit) then some ((digitsVal cs : Int)) else none
    else
      if (c :: cs).all (fun d => d.isDigit) then some ((digitsVal (c :: cs) : Int)) else none

/- The splitter `re.split('(@@.*?-.*?\+.*?@@)', diff)`.  Since `.` never
matches a newline, a match lies entirely within one line: from a literal
`@@`, lazy scanning reaches the first `-`, then the first `+` after it, then
the first `@@` after that. -/

/-- Lazy `.*?c`: consume characters other than `\n` up to the first `c`,
returning the consumed prefix (including `c`) and the remainder. -/
def scanChar (t : Char) : List Char → Option (List Char × List Char)
  | [] => none
  | c :: cs =>
    if c = t then some ([c], cs)
    else if c = '\n' then none
    else (scanChar t cs).map (fun pr => (c :: pr.1, pr.2))

/-- Lazy `.*?@@`: consume characters other than `\n` up to the first `@@`. -/
def scanAts : List Char → Option (List Char × List Char)
  | [] => none
  | c :: cs =>
    if c = '@' ∧ cs.head? = some '@' then some (['@', '@'], cs.tail)
    else if c = '\n' then none
    else (scanAts cs).map (fun pr => (c :: pr.1, pr.2))

/-- Match of `@@.*?-.*?\+.*?@@` anchored at the head of the list: the matched
text and the remainder. -/
def matchAt : List Char → Option (List Char × List Char)
  | c1 :: c2 :: cs =>
    if c1 = '@' ∧ c2 = '@' then
      match scanChar '-' cs with
      | none => none
      | some (p1, r1) =>
        match scanChar '+' r1 with
        | none => none
        | some (p2, r2) =>
          match scanAts r2 with
          | none => none
          | some (p3, r3) => some ('@' :: '@' :: (p1 ++ p2 ++ p3), r3)
    else none
  | _ => none

/-- Worker for `re.split` with the capturing hunk-header group: alternating
gap and match segments, exactly as CPython returns them.  The first argument
is computation fuel; every step consumes at least one character, so fuel
`l.length + 1` is always sufficient and the fuel-exhausted branch is dead
(see `reSplitF_fuel`). -/
def reSplitF : Nat → List Char → List Char → List (List Char)
  | 0, l, acc => [acc.reverse ++ l]
  | fuel + 1, l, acc =>
    match l with
    | [] => [acc.reverse]
    | c :: cs =>
      match matchAt (c :: cs) with
      | some (m, rest) => acc.reverse :: m :: reSplitF fuel rest []
      | none => reSplitF fuel cs (c :: acc)

/-- `re.split('(@@.*?-.*?\+.*?@@)', diff)`. -/
def reSplit (l : List Char) : List (List Char) := reSplitF (l.length + 1) l []

/-- Pair up the alternating (header, body) segments that follow the preamble,
modelling `for i in range(1, parts_len, 2): parts[i], parts[i+1]`. -/
def pairUp {α : Type} : List α → List (α × α)
  | a :: b :: t => (a, b) :: pairUp t
  | _ => []

/-- `location.replace('@','').strip().split(' ')`. -/
def splitTokens (location : List Char) : List (List Char) :=
  pySplitOn ' ' (pyStrip (location.filter (fun c => !(c == '@'))))

/-- Parse one range token: mirrors the `if ',' in add` branch.  `none` models
the `ValueError` from unpacking a `split(',')` of the wrong arity; otherwise
returns the location field (absent when there is no comma, in which case the
source uses the integer literal `0`) and the line field. -/
def rangeFields (r : List Char) : Option (Option (List Char) × List Char) :=
  if r.contains ',' then
    match pySplitOn ',' (r.drop 1) with
    | [x, y] => some (some x, y)
    | _ => none
  else some (none, r.drop 1)

/-- `int(...)` applied to a location field, where an absent field is the
integer literal `0`. -/
def locFieldInt : Option (List Char) → Option Int
  | none => some 0
  | some s => pyInt s

/-- Lines of the hunk body that remain classified as added, with the leading
run of `+` stripped (`re.sub('^\++','',x)`), after `strip()` on each line. -/
def addedLines (part : List Char) : List (List Char) :=
  (((pySplitlines part).map pyStrip).filter (fun x => x.head? == some '+')).map
    (fun x => x.dropWhile (fun c => c == '+'))

/-- Deleted lines of the hunk body, with the leading run of `-` stripped. -/
def deletedLines (part : List Char) : List (List Char) :=
  (((pySplitlines part).map pyStrip).filter (fun x => x.head? == some '-')).map
    (fun x => x.dropWhile (fun c => c == '-'))

/-- Characters allowed inside a range token of a hunk header: decimal digits
and the comma. -/
def charOK (c : Char) : Bool := c.isDigit || c == ','

/-- A hunk header `@@ -a +b @@` built from the two range tokens (without
their signs). -/
def hdrChars (a b : List Char) : List Char :=
  '@' :: '@' :: ' ' :: '-' :: (a ++ ' ' :: '+' :: (b ++ [' ', '@', '@']))

/-- Accumulator mirroring the six mutable locals of `parse_diff`. -/
structure DiffAcc where
  add_diff_code : List Char
  del_diff_code : List Char
  add_code_line : Nat
  del_code_line : Nat
  add_location_set : List (Int × Int)
  del_location_set : List (Int × Int)
deriving DecidableEq

def initAcc : DiffAcc := ⟨[], [], 0, 0, [], []⟩

/-- `if ('-' in add) and ('+' in dele): add, dele = dele, add` — the ranges
are branch-corrected by sign before parsing. -/
def swapRanges (a0 d0 : List Char) : List Char × List Char :=
  if a0.contains '-' ∧ d0.contains '+' then (d0, a0) else (a0, d0)

/-- Accumulation of the hunk body into code text and line counts (the four
mutations performed before the location `int()` conversions). -/
def accumulateBody (acc : DiffAcc) (part : List Char) : DiffAcc :=
  { acc with
    add_diff_code := acc.add_diff_code ++ List.intercalate ['\n'] (addedLines part) ++ ['\n']
    del_diff_code := acc.del_diff_code ++ List.intercalate ['\n'] (deletedLines part) ++ ['\n']
    add_code_line := acc.add_code_line + (addedLines part).length
    del_code_line := acc.del_code_line + (deletedLines part).length }

/-- One iteration of the hunk loop of `parse_diff`.  The structure mirrors the
source exactly, including the exception semantics: a failed two-way unpack of
the header skips the hunk before any mutation; an oversized body skips it; a
failed `int()` conversion aborts after the code text and line counts (and
possibly the add location) were already accumulated. -/
def processHunk (acc : DiffAcc) (h : List Char × List Char) : DiffAcc :=
  match splitTokens h.1 with
  | [a0, d0] =>
    if 100 * 1024 ≤ h.2.length then acc
    else
      let ad := swapRanges a0 d0
      match rangeFields ad.1, rangeFields ad.2 with
      | some af, some df =>
        let acc1 := accumulateBody acc h.2
        match locFieldInt af.1, pyInt af.2 with
        | some la, some na =>
          let acc2 := { acc1 with add_location_set := acc1.add_location_set ++ [(la, na)] }
          match locFieldInt df.1, pyInt df.2 with
          | some ld, some nd =>
            { acc2 with del_location_set := acc2.del_location_set ++ [(ld, nd)] }
          | _, _ => acc2
        | _, _ => acc1
      | _, _ => acc
  | _ => acc

/-- The hunk loop of `parse_diff` over the (header, body) pairs. -/
def processHunks (acc : DiffAcc) (hs : List (List Char × List Char)) : DiffAcc :=
  hs.foldl processHunk acc

/-- The record returned by `parse_diff`. -/
structure FileDiffStats where
  name : List Char
  loc_add : Nat
  loc_del : Nat
  location_add : List (Int × Int)
  location_del : List (Int × Int)
  add_code : List Char
  del_code : List Char
deriving DecidableEq

/-- `parse_diff(file_name, diff)` from src/fetch_raw_diff.py. -/
def parse_diff (file_name diff : List Char) : FileDiffStats :=
  let parts := reSplit diff
  let acc := processHunks initAcc (pairUp (parts.drop 1))
  ⟨file_name, acc.add_code_line, acc.del_code_line,
   acc.add_location_set, acc.del_location_set,
   acc.add_diff_code, acc.del_diff_code⟩

/- Part 2 embeds the token pool of src/github_api.py: `GitHubAPIToken`
(`when`, `ready`, `request`) and the dispatcher loop `GitHubAPI.request`.
The network is modelled by a script of events, one consumed per actual HTTP
send; `time.sleep` advances an explicit clock and is recorded in a trace;
`randint(a, b)` draws from an explicit list of values.  Exceptions
(`TokenNotReady`, `requests.ConnectionError`, `requests.exceptions.Timeout`,
`raise_for_status`) become explicit outcomes. -/

/-- Rate-limit bookkeeping of one token for one API class: the three fields
of `self.limit[api_class]`, each `None` until first observed. -/
structure RateLimit where
  remaining : Option Int
  reset_time : Option Int
  limit : Option Int
deriving DecidableEq

def freshRate : RateLimit := ⟨none, none, none⟩

/-- The mutable rate-limit state of one `GitHubAPIToken` (classes `core` and
`search`). -/
structure TokenState where
  core : RateLimit
  search : RateLimit
deriving DecidableEq

def freshToken : TokenState := ⟨freshRate, freshRate⟩

/-- `api_class(url)`: `'search'` for urls starting with `search`, else `'core'`
(`url.startswith('search')`, stated over the character list of the url). -/
def isSearch (url : String) : Bool := url.toList.take 6 == "search".toList

def classLimit (url : String) (t : TokenState) : RateLimit :=
  if isSearch url then t.search else t.core

def setClassLimit (url : String) (t : TokenState) (r : RateLimit) : TokenState :=
  if isSearch url then { t with search := r } else { t with core := r }

/-- `GitHubAPIToken.when(url)`: `0` when the remaining quota is non-zero or
unobserved, else the recorded reset time (possibly `None`). -/
def tokenWhen (url : String) (t : TokenState) : Option Int :=
  if (classLimit url t).remaining ≠ some 0 then some 0
  else (classLimit url t).reset_time

/-- `GitHubAPIToken.ready(url)`: `not t or t <= time.time()` where `t` is
`when(url)` (both `None` and `0` are falsy). -/
def tokenReady (now : Int) (url : String) (t : TokenState) : Bool :=
  match tokenWhen url t with
  | none => true
  | some w => decide (w = 0 ∨ w ≤ now)

/-- The three `X-RateLimit-*` response headers, present together or absent. -/
structure RateHeaders where
  remaining : Int
  reset : Int
  limit : Int
deriving DecidableEq

/-- One network-level event: what a single `requests.request` call does. -/
inductive NetEvent where
  | timeout
  | connError
  | resp (status : Nat) (rate : Option RateHeaders) (body : List Nat) (hasNext : Bool)
deriving DecidableEq

/-- Tracker update from response headers, when present:
`self.limit[self.api_class(url)] = {remaining, reset_time, limit}`. -/
def applyHeaders (url : String) (rate : Option RateHeaders) (t : TokenState) : TokenState :=
  match rate with
  | none => t
  | some h => setClassLimit url t ⟨some h.remaining, some h.reset, some h.limit⟩

/-- Result of `GitHubAPIToken.request` on one event: an exception or a
response. -/
inductive ReqResult where
  | timeoutExn
  | connExn
  | tokenNotReady
  | success (status : Nat) (body : List Nat) (hasNext : Bool)
deriving DecidableEq

/-- `GitHubAPIToken.request` body after the `ready` check: perform the call,
update the tracker from rate-limit headers when present, and raise
`TokenNotReady` on 403-with-zero-remaining or on 443 (both checks live inside
the headers-present branch in the source). -/
def tokenRequest (url : String) (ev : NetEvent) (t : TokenState) : ReqResult × TokenState :=
  match ev with
  | .timeout => (.timeoutExn, t)
  | .connError => (.connExn, t)
  | .resp status rate body hasNext =>
    let t1 := applyHeaders url rate t
    match rate with
    | some h =>
      if status = 403 ∧ h.remaining = 0 then (.tokenNotReady, t1)
      else if status = 443 then (.tokenNotReady, t1)
      else (.success status body hasNext, t1)
    | none => (.success status body hasNext, t1)

/-- A recorded `time.sleep`: either `time.sleep(randint(lo, hi))` or the
pool-exhaustion sleep. -/
inductive Action where
  | jitterSleep (lo hi v : Int)
  | exhaustSleep (v : Int)
deriving DecidableEq

/-- The state threaded through `GitHubAPI.request`: the pool's token states,
the clock, the locals `timeout_counter`, `params['page']` and
`paginated_res`, the remaining network script, the remaining `randint`
draws, and the trace of sleeps performed. -/
structure DispatchState where
  tokens : List TokenState
  now : Int
  timeout_counter : Nat
  page : Nat
  acc : List Nat
  script : List NetEvent
  rand : List Int
  trace : List Action
deriving DecidableEq

/-- How a call to `GitHubAPI.request` ends. -/
inductive Outcome where
  | ok (body : List Nat)
  | httpError (status : Nat)
  | timeoutEsc
  | scriptEnd
  | pyError
  | diverge
deriving DecidableEq

/-- Draw the next `randint` value (defaulting to 1 on an exhausted list). -/
def popRand : List Int → Int × List Int
  | [] => (1, [])
  | v :: vs => (v, vs)

/-- Result of one pass of the `for token in self.tokens` loop. -/
inductive InnerRes where
  | ret (out : Outcome) (s : DispatchState)
  | fell (s : DispatchState)
deriving DecidableEq

/-- The `for token in self.tokens` loop of `GitHubAPI.request`, iterating
over token indices.  Mirrors the source branch for branch: the `ready`
check, the three `except` clauses, the status-code ladder (404/451, 409,
410, 401, 403, 443, 502, 500), `raise_for_status`, and the pagination
accumulate-and-continue step. -/
def innerLoop (url : String) (paginate : Bool) : List Nat → DispatchState → InnerRes
  | [], s => .fell s
  | i :: rest, s =>
    match s.tokens.get? i with
    | none => .fell s
    | some tok =>
      if tokenReady s.now url tok then
        match s.script with
        | [] => .ret .scriptEnd s
        | ev :: evs =>
          let s1 : DispatchState := { s with script := evs }
          let rt := tokenRequest url ev tok
          let s2 : DispatchState := { s1 with tokens := s1.tokens.set i rt.2 }
          match rt.1 with
          | .connExn => innerLoop url paginate rest s2
          | .tokenNotReady => innerLoop url paginate rest s2
          | .timeoutExn =>
            let s3 : DispatchState := { s2 with timeout_counter := s2.timeout_counter + 1 }
            if s3.tokens.length < s3.timeout_counter then .ret .timeoutEsc s3
            else innerLoop url paginate rest s3
          | .success status body hasNext =>
            if status = 404 ∨ status = 451 then .ret (.ok []) s2
            else if status = 409 then .ret (.ok []) s2
            else if status = 410 then .ret (.ok []) s2
            else if status = 401 then innerLoop url paginate rest s2
            else if status = 403 then
              let vr := popRand s2.rand
              let s3 : DispatchState := { s2 with
                rand := vr.2
                now := s2.now + vr.1
                trace := s2.trace ++ [.jitterSleep 1 60 vr.1] }
              innerLoop url paginate rest s3
            else if status = 443 then
              let vr := popRand s2.rand
              let s3 : DispatchState := { s2 with
                rand := vr.2
                now := s2.now + vr.1
                trace := s2.trace ++ [.jitterSleep 1 29 vr.1] }
              innerLoop url paginate rest s3
            else if status = 502 then
              let vr := popRand s2.rand
              let s3 : DispatchState := { s2 with
                rand := vr.2
                now := s2.now + vr.1
                trace := s2.trace ++ [.jitterSleep 1 29 vr.1] }
              innerLoop url paginate rest s3
            else if status = 500 then
              let vr := popRand s2.rand
              let s3 : DispatchState := { s2 with
                rand := vr.2
                now := s2.now + vr.1
                trace := s2.trace ++ [.jitterSleep 1 29 vr.1] }
              innerLoop url paginate rest s3
            else if 400 ≤ status ∧ status < 600 then .ret (.httpError status) s2
            else
              if paginate then
                let s3 : DispatchState := { s2 with acc := s2.acc ++ body }
                if body = [] ∨ hasNext = false then .ret (.ok s3.acc) s3
                else innerLoop url paginate rest { s3 with page := s3.page + 1 }
              else .ret (.ok body) s2
      else innerLoop url paginate rest s

/-- `min(token.when(url) for token in self.tokens)`: `none` models the
exception CPython raises when the pool is empty or some `when` is `None`. -/
def nextRes (url : String) (tokens : List TokenState) : Option Int :=
  let whens := tokens.map (tokenWhen url)
  if whens.contains none then none
  else (whens.filterMap id).min?

/-- The `while True` loop of `GitHubAPI.request`, with fuel bounding the
number of iterations.  After a fall-through pass over all tokens the
dispatcher sleeps until one second past the earliest reset time, when that
instant is in the future. -/
def outerLoop (url : String) (paginate : Bool) : Nat → DispatchState → Outcome × DispatchState
  | 0, s => (.diverge, s)
  | fuel + 1, s =>
    match innerLoop url paginate (List.range s.tokens.length) s with
    | .ret out s1 => (out, s1)
    | .fell s1 =>
      match nextRes url s1.tokens with
      | none => (.pyError, s1)
      | some m =>
        let sleep := m - s1.now + 1
        let s2 : DispatchState :=
          if 0 < sleep then
            { s1 with
              now := s1.now + sleep
              trace := s1.trace ++ [.exhaustSleep sleep] }
          else s1
        outerLoop url paginate fuel s2

/-- `GitHubAPI.request(url, paginate=...)`: the locals are initialised
(`timeout_counter = 0`; for pagination `params['page'] = 1` and an empty
`paginated_res`) and the `while True` loop runs. -/
def GitHubAPI_request (url : String) (paginate : Bool) (tokens : List TokenState)
    (script : List NetEvent) (rand : List Int) (now : Int) (fuel : Nat) :
    Outcome × DispatchState :=
  outerLoop url paginate fuel
    ⟨tokens, now, 0, 1, [], script, rand, []⟩

/-- A synthetic successful page response: status 200, no rate headers, the
given body, and a `Link: rel="next"` header exactly when the flag is set. -/
def pageEv (p : List Nat × Bool) : NetEvent := NetEvent.resp 200 none p.1 p.2

/-- Concatenation of the page bodies, in order. -/
def concatBodies : List (List Nat × Bool) → List Nat
  | [] => []
  | p :: ps => p.1 ++ concatBodies ps

/-- A finite response sequence on which the pagination loop should fetch
every page: every page before the last has a non-empty body and carries a
next link, and the last one has an empty body or no next link. -/
def goodPages : List (List Nat × Bool) → Bool
  | [] => false
  | [p] => p.1.isEmpty || !p.2
  | p :: ps => !p.1.isEmpty && p.2 && goodPages ps

/- Part 3 embeds the singleton construction of `GitHubAPI`
(`__new__`/`__init__`): calling the class first runs `__new__`, which
returns the class attribute `_instance` when it is already an instance and
otherwise allocates a fresh object and stores it there, and then always runs
`__init__` on the returned object, which raises when the token list is empty
and otherwise overwrites the instance attribute `tokens` with freshly
constructed `GitHubAPIToken`s.  Object identity is modelled by allocation
numbers in a small heap. -/

/-- One entry of the `tokens` attribute: a `GitHubAPIToken(t, timeout=30)`. -/
structure PoolEntry where
  secret : String
  state : TokenState
deriving DecidableEq

def mkToken (s : String) : PoolEntry := ⟨s, freshToken⟩

/-- The heap: an allocation counter, the class attribute
`GitHubAPI._instance`, and the `tokens` attribute of each allocated
instance (an association list keyed by object identity, most recent first). -/
structure PyHeap where
  nextId : Nat
  instanceVar : Option Nat
  attrs : List (Nat × List PoolEntry)
deriving DecidableEq

def getAttr (h : PyHeap) (i : Nat) : List PoolEntry := (h.attrs.lookup i).getD []

/-- `GitHubAPI.__new__`: reuse `_instance` when set, else allocate. -/
def GitHubAPI_new (h : PyHeap) : Nat × PyHeap :=
  match h.instanceVar with
  | some i => (i, h)
  | none => (h.nextId, { h with nextId := h.nextId + 1, instanceVar := some h.nextId })

/-- `GitHubAPI.__init__`: raises `EnvironmentError` on an empty token list,
else re-creates `self.tokens` from the secrets. -/
def GitHubAPI_init (ref : Nat) (secrets : List String) (h : PyHeap) : Except Unit PyHeap :=
  if secrets = [] then .error ()
  else .ok { h with attrs := (ref, secrets.map mkToken) :: h.attrs }

/-- `GitHubAPI(tokens)`: `__new__` then `__init__` on the returned object. -/
def GitHubAPI_construct (secrets : List String) (h : PyHeap) : Except Unit (Nat × PyHeap) :=
  let nh := GitHubAPI_new h
  match GitHubAPI_init nh.1 secrets nh.2 with
  | .error e => .error e
  | .ok h2 => .ok (nh.1, h2)

/- Lemmas about the splitter worker: the scans shorten the input, and the
fuel of `reSplitF` is irrelevant once it exceeds the input length. -/

theorem scanChar_rest_length {t : Char} :
    ∀ {l : List Char} {p r : List Char}, scanChar t l = some (p, r) → r.length < l.length := by
  intro l
  induction l with
  | nil => intro p r h; simp [scanChar] at h
  | cons c cs ih =>
    intro p r h
    simp only [scanChar] at h
    split at h
    · cases h; simp
    · split at h
      · cases h
      · cases hrec : scanChar t cs with
        | none => rw [hrec] at h; cases h
        | some pr =>
          rw [hrec] at h
          cases h
          exact Nat.lt_trans (ih hrec) (Nat.lt_succ_self _)

theorem scanAts_rest_length :
    ∀ {l : List Char} {p r : List Char}, scanAts l = some (p, r) → r.length < l.length := by
  intro l
  induction l with
  | nil => intro p r h; simp [scanAts] at h
  | cons c cs ih =>
    intro p r h
    simp only [scanAts] at h
    split at h
    · rename_i hc
      cases h
      cases cs with
      | nil => simp
      | cons d ds => simp only [List.tail_cons, List.length_cons]; omega
    · split at h
      · cases h
      · cases hrec : scanAts cs with
        | none => rw [hrec] at h; cases h
        | some pr =>
          rw [hrec] at h
          cases h
          exact Nat.lt_trans (ih hrec) (Nat.lt_succ_self _)

theorem matchAt_rest_length :
    ∀ {l : List Char} {m r : List Char}, matchAt l = some (m, r) → r.length < l.length := by
  intro l m r h
  match l with
  | [] => simp [matchAt] at h
  | [c] => simp [matchAt] at h
  | c1 :: c2 :: cs =>
    simp only [matchAt] at h
    split at h
    · cases h1 : scanChar '-' cs with
      | none => rw [h1] at h; cases h
      | some pr1 =>
        obtain ⟨p1, r1⟩ := pr1
        simp only [h1] at h
        cases h2 : scanChar '+' r1 with
        | none => rw [h2] at h; cases h
        | some pr2 =>
          obtain ⟨p2, r2⟩ := pr2
          simp only [h2] at h
          cases h3 : scanAts r2 with
          | none => rw [h3] at h; cases h
          | some pr3 =>
            obtain ⟨p3, r3⟩ := pr3
            simp only [h3, Option.some.injEq, Prod.mk.injEq] at h
            obtain ⟨hm, hr⟩ := h
            subst hr
            have l3 := scanAts_rest_length h3
            have l2 := scanChar_rest_length h2
            have l1 := scanChar_rest_length h1
            simp only [List.length_cons]
            omega
    · cases h


/-- One-step unfolding of `reSplitF` at positive fuel. -/
theorem reSplitF_succ (f : Nat) (l acc : List Char) :
    reSplitF (f + 1) l acc =
      match l with
      | [] => [acc.reverse]
      | c :: cs =>
        match matchAt (c :: cs) with
        | some (m, rest) => acc.reverse :: m :: reSplitF f rest []
        | none => reSplitF f cs (c :: acc) := rfl

/-- The result of `reSplitF` equals its value at the canonical fuel
`l.length + 1`, provided the fuel exceeds the length of the input. -/
theorem reSplitF_canon :
    ∀ f : Nat, ∀ {l acc : List Char}, l.length < f →
      reSplitF f l acc = reSplitF (l.length + 1) l acc := by
  intro f
  induction f using Nat.strong_induction_on with
  | _ f ih =>
    intro l acc h
    match f, h with
    | g + 1, h =>
    cases l with
    | nil => rfl
    | cons c cs =>
      simp only [List.length_cons] at h
      simp only [List.length_cons]
      rw [reSplitF_succ g, reSplitF_succ (cs.length + 1)]
      cases hm : matchAt (c :: cs) with
      | some pr =>
        obtain ⟨m, rest⟩ := pr
        have hr := matchAt_rest_length hm
        simp only [List.length_cons] at hr
        simp only [hm]
        have e1 : reSplitF g rest [] = reSplitF (rest.length + 1) rest [] :=
          ih g (Nat.lt_succ_self g) (by omega)
        have e2 : reSplitF (cs.length + 1) rest [] = reSplitF (rest.length + 1) rest [] :=
          ih (cs.length + 1) (by omega) (by omega)
        rw [e1, e2]
      | none =>
        simp only [hm]
        exact ih g (Nat.lt_succ_self g) (by omega)

/-- The result of `reSplitF` does not depend on the fuel, provided the fuel
exceeds the length of the input. -/
theorem reSplitF_fuel {f1 f2 : Nat} {l acc : List Char}
    (h1 : l.length < f1) (h2 : l.length < f2) :
    reSplitF f1 l acc = reSplitF f2 l acc := by
  rw [reSplitF_canon f1 h1, reSplitF_canon f2 h2]

/-- Step lemma: a match at the head of the input emits the accumulated gap and
the match, and restarts after the match with canonical fuel. -/
theorem reSplitF_match {f : Nat} {l acc m rest : List Char}
    (hf : l.length < f) (h : matchAt l = some (m, rest)) :
    reSplitF f l acc = acc.reverse :: m :: reSplitF (rest.length + 1) rest [] := by
  match f, hf with
  | g + 1, hf =>
  cases l with
  | nil => simp [matchAt] at h
  | cons c cs =>
    rw [reSplitF_succ g]
    simp only [h]
    have hr := matchAt_rest_length h
    have hg : rest.length < g := by
      simp only [List.length_cons] at hf hr; omega
    rw [reSplitF_canon g hg]

/-- Step lemma: no match at the head of the input shifts one character into
the accumulator. -/
theorem reSplitF_nomatch {f : Nat} {c : Char} {cs acc : List Char}
    (hf : (c :: cs).length < f) (h : matchAt (c :: cs) = none) :
    reSplitF f (c :: cs) acc = reSplitF (cs.length + 1) cs (c :: acc) := by
  match f, hf with
  | g + 1, hf =>
  rw [reSplitF_succ g]
  simp only [h]
  have hg : cs.length < g := by
    simp only [List.length_cons] at hf; omega
  exact reSplitF_canon g hg

theorem reSplitF_nil {f : Nat} {acc : List Char} (hf : 0 < f) :
    reSplitF f [] acc = [acc.reverse] := by
  match f, hf with
  | g + 1, _ => rfl

/- Helper lemmas about the hunk loop. -/

/-- A hunk whose header does not split into exactly two space-separated
tokens is skipped before any mutation. -/
theorem processHunk_arity {acc : DiffAcc} {loc part : List Char}
    (h : (splitTokens loc).length ≠ 2) :
    processHunk acc (loc, part) = acc := by
  unfold processHunk
  cases hs : splitTokens loc with
  | nil => rfl
  | cons a t =>
    cases t with
    | nil => rfl
    | cons d t2 =>
      cases t2 with
      | nil => exact absurd (by rw [hs]; rfl) h
      | cons e t3 => rfl

/-- A hunk whose body reaches the 100 KiB ceiling is skipped before any
mutation. -/
theorem processHunk_big {acc : DiffAcc} {loc part : List Char}
    (h : 100 * 1024 ≤ part.length) :
    processHunk acc (loc, part) = acc := by
  unfold processHunk
  cases hs : splitTokens loc with
  | nil => rfl
  | cons a t =>
    cases t with
    | nil => rfl
    | cons d t2 =>
      cases t2 with
      | nil => simp [h]
      | cons e t3 => rfl

/-- A hunk on which the loop body is the identity contributes nothing to the
accumulated statistics, and the remaining hunks are unaffected. -/
theorem processHunks_skip {x : List Char × List Char}
    (hx : ∀ acc : DiffAcc, processHunk acc x = acc) :
    ∀ (pre post : List (List Char × List Char)) (acc : DiffAcc),
      processHunks acc (pre ++ x :: post) = processHunks acc (pre ++ post) := by
  intro pre
  induction pre with
  | nil =>
    intro post acc
    simp only [List.nil_append, processHunks, List.foldl_cons, hx]
  | cons y ys ih =>
    intro post acc
    simp only [List.cons_append, processHunks, List.foldl_cons] at ih ⊢
    exact ih post (processHunk acc y)

/-- Claim C9: a hunk whose raw body text length exceeds the 100 KiB ceiling
is excluded from the output of `parse_diff` — it contributes nothing to the
line counts, code text or location lists accumulated over the remaining
hunks — and no exception is raised (the loop body is total). -/
theorem hunk_size_ceiling_skip
    (pre post : List (List Char × List Char)) (acc : DiffAcc) (loc part : List Char)
    (h : 100 * 1024 < part.length) :
    processHunks acc (pre ++ (loc, part) :: post) = processHunks acc (pre ++ post) :=
  processHunks_skip (fun a => processHunk_big (Nat.le_of_lt h)) pre post acc

/-- Witness for C9 at a concrete 102401-character hunk body. -/
theorem hunk_size_ceiling_skip_w :
    processHunks initAcc [("@@ -1 +1 @@".toList, List.replicate 102401 'x')] = initAcc :=
  hunk_size_ceiling_skip [] [] initAcc "@@ -1 +1 @@".toList (List.replicate 102401 'x')
    (by rw [List.length_replicate]; omega)

/-- Claim C3, corrected.  First conjunct: a hunk whose header fails to split
into exactly two ranges contributes nothing, and the remaining hunks still
produce partial statistics.  Second conjunct: a hunk whose header splits and
whose body passes the size check, but one of whose delete-range fields fails
integer conversion, is half-recorded — its code text and line counts are
accumulated and its add location appended, while the delete location is
dropped. -/
theorem parse_diff_hunk_skip_behavior :
    (∀ (pre post : List (List Char × List Char)) (acc : DiffAcc) (loc part : List Char),
       (splitTokens loc).length ≠ 2 →
       processHunks acc (pre ++ (loc, part) :: post) = processHunks acc (pre ++ post))
    ∧
    (∀ (acc : DiffAcc) (loc part a0 d0 : List Char) (af df : Option (List Char) × List Char)
       (la na : Int),
       splitTokens loc = [a0, d0] →
       part.length < 100 * 1024 →
       rangeFields (swapRanges a0 d0).1 = some af →
       rangeFields (swapRanges a0 d0).2 = some df →
       locFieldInt af.1 = some la →
       pyInt af.2 = some na →
       (locFieldInt df.1 = none ∨ pyInt df.2 = none) →
       processHunk acc (loc, part) =
         { accumulateBody acc part with
           add_location_set := (accumulateBody acc part).add_location_set ++ [(la, na)] }) := by
  constructor
  · intro pre post acc loc part h
    exact processHunks_skip (fun a => processHunk_arity h) pre post acc
  · intro acc loc part a0 d0 af df la na hsplit hlen haf hdf hla hna hdel
    unfold processHunk
    simp only [hsplit]
    rw [if_neg (Nat.not_le.mpr hlen)]
    simp only [haf, hdf, hla, hna]
    rcases hdel with h1 | h1
    · simp [h1]
    · cases h2 : locFieldInt df.1 with
      | none => simp [h1, h2]
      | some ld => simp [h1, h2]

/-- Witness for the corrected C3: instantiating the arity conjunct at a
header that yields a single token, and checking its hypothesis concretely. -/
theorem parse_diff_hunk_skip_behavior_w :
    processHunks initAcc [("@@ broken @@".toList, "\n+a\n".toList)] = initAcc :=
  parse_diff_hunk_skip_behavior.1 [] [] initAcc "@@ broken @@".toList "\n+a\n".toList
    (by decide)

/-- Counterexample for C3 as stated: in `@@ -x,2 +3,4 @@` the delete-range
start is non-numeric, yet the hunk is half-recorded — its added line is
counted, its code text kept and its add location appended — rather than
contributing nothing; and no length consistency check relates the recorded
ranges to the body. -/
theorem parse_diff_half_recorded_cex :
    parse_diff "f".toList "@@ -x,2 +3,4 @@\n+a\n".toList =
      ⟨"f".toList, 1, 0, [(3, 4)], [], "a\n".toList, "\n".toList⟩ := by decide

/-- Counterexample for C1 as stated: for `@@ -5 +7 @@` each side omitting a
length is recorded as `(0, n)` — start `0` and the number after the sign as
the length — not as `(n, 1)`. -/
theorem parse_diff_omitted_length_cex :
    (parse_diff "f".toList "@@ -5 +7 @@\n".toList).location_del = [(0, 5)] ∧
    (parse_diff "f".toList "@@ -5 +7 @@\n".toList).location_del ≠ [(5, 1)] ∧
    (parse_diff "f".toList "@@ -5 +7 @@\n".toList).location_add = [(0, 7)] ∧
    (parse_diff "f".toList "@@ -5 +7 @@\n".toList).location_add ≠ [(7, 1)] := by decide

/-- Counterexample for C2 as stated: a header listing the `+` range first is
not matched by the hunk-header pattern, so the hunk contributes nothing and
the statistics differ from the `-`-first form of the same hunk. -/
theorem parse_diff_header_order_cex :
    parse_diff "f".toList "@@ +3,4 -1,2 @@\n+a\n-b\n".toList ≠
      parse_diff "f".toList "@@ -1,2 +3,4 @@\n+a\n-b\n".toList ∧
    (parse_diff "f".toList "@@ +3,4 -1,2 @@\n+a\n-b\n".toList).location_add = [] ∧
    (parse_diff "f".toList "@@ -1,2 +3,4 @@\n+a\n-b\n".toList).location_add = [(3, 4)] ∧
    (parse_diff "f".toList "@@ -1,2 +3,4 @@\n+a\n-b\n".toList).location_del = [(1, 2)] := by
  decide

/- Claims about the dispatcher. -/

/-- Counterexample for C4 as stated: a 403 response whose rate-limit-remaining
header equals 0 leads to `TokenNotReady`, which the dispatcher catches by
moving straight to the next credential — the run below performs zero sleeps
(empty trace), not exactly one, before the retry succeeds; the first token's
tracker is updated to remaining 0 from the header. -/
theorem dispatch_403_exhausted_cex :
    GitHubAPI_request "repos/x" false [freshToken, freshToken]
      [NetEvent.resp 403 (some ⟨0, 100, 5000⟩) [] false, NetEvent.resp 200 none [7] false]
      [] 0 1
    = (Outcome.ok [7],
       ⟨[⟨⟨some 0, some 100, some 5000⟩, freshRate⟩, freshToken],
        0, 0, 1, [], [], [], []⟩) := by decide

/-- Claim C4, corrected: on a 403 response carrying a zero rate-limit-remaining
header, the token's tracker is updated from the header (hence remaining 0) and
`TokenNotReady` is raised; the dispatcher returns to credential selection
immediately, performing no sleep (clock, jitter draws and sleep trace are all
unchanged), so the 1-60 jittered sleep happens only for 403 responses without
such a header. -/
theorem dispatch_403_exhausted_no_sleep
    (url : String) (pg : Bool) (i : Nat) (rest : List Nat)
    (toks : List TokenState) (now : Int) (tc page : Nat) (acc : List Nat)
    (evs : List NetEvent) (rand : List Int) (trace : List Action)
    (tok : TokenState) (rh : RateHeaders) (body : List Nat) (next : Bool)
    (hget : toks.get? i = some tok)
    (hready : tokenReady now url tok = true)
    (hrem : rh.remaining = 0) :
    innerLoop url pg (i :: rest)
      ⟨toks, now, tc, page, acc, NetEvent.resp 403 (some rh) body next :: evs, rand, trace⟩
    = innerLoop url pg rest
      ⟨toks.set i (applyHeaders url (some rh) tok), now, tc, page, acc, evs, rand, trace⟩ := by
  simp only [innerLoop, hget, hready, if_true, tokenRequest, hrem, and_true, and_self,
    if_pos rfl]

/-- Witness for the corrected C4, instantiated at the run of the
counterexample's first step. -/
theorem dispatch_403_exhausted_no_sleep_w :
    innerLoop "repos/x" false [0, 1]
      ⟨[freshToken, freshToken], 0, 0, 1, [],
       NetEvent.resp 403 (some ⟨0, 100, 5000⟩) [] false :: [NetEvent.resp 200 none [7] false],
       [], []⟩
    = innerLoop "repos/x" false [1]
      ⟨[freshToken, freshToken].set 0 (applyHeaders "repos/x" (some ⟨0, 100, 5000⟩) freshToken),
       0, 0, 1, [], [NetEvent.resp 200 none [7] false], [], []⟩ :=
  dispatch_403_exhausted_no_sleep "repos/x" false 0 [1] [freshToken, freshToken] 0 0 1 []
    [NetEvent.resp 200 none [7] false] [] [] freshToken ⟨0, 100, 5000⟩ [] false
    (by decide) (by decide) rfl

/-- Claim C7: a response with status 404, 409, 410 or 451 makes the dispatcher
return a terminal success with an empty result body, with no error raised and
no sleep performed. -/
theorem soft_status_empty_success
    (url : String) (pg : Bool) (st : Nat) (rate : Option RateHeaders) (body : List Nat)
    (next : Bool) (tok : TokenState) (now : Int) (tc page : Nat) (acc : List Nat)
    (evs : List NetEvent) (rand : List Int) (trace : List Action) (f : Nat)
    (hready : tokenReady now url tok = true)
    (hst : st = 404 ∨ st = 409 ∨ st = 410 ∨ st = 451) :
    outerLoop url pg (f + 1)
      ⟨[tok], now, tc, page, acc, NetEvent.resp st rate body next :: evs, rand, trace⟩
    = (Outcome.ok [],
       ⟨[applyHeaders url rate tok], now, tc, page, acc, evs, rand, trace⟩) := by
  cases rate with
  | none =>
    rcases hst with h | h | h | h <;> subst h <;>
      simp [outerLoop, innerLoop, tokenRequest, applyHeaders, hready, List.range_succ]
  | some rh =>
    rcases hst with h | h | h | h <;> subst h <;>
      simp [outerLoop, innerLoop, tokenRequest, applyHeaders, hready, List.range_succ]

/-- Witness for C7 at status 404. -/
theorem soft_status_empty_success_w :
    outerLoop "repos/x" false 1
      ⟨[freshToken], 0, 0, 1, [], [NetEvent.resp 404 none [9] true], [], []⟩
    = (Outcome.ok [],
       ⟨[applyHeaders "repos/x" none freshToken], 0, 0, 1, [], [], [], []⟩) :=
  soft_status_empty_success "repos/x" false 404 none [9] true freshToken 0 0 1 [] [] [] [] 0
    (by decide) (Or.inl rfl)

/-- A token that is not ready has an observed zero remaining quota, and its
`when` is its recorded reset time. -/
theorem tokenWhen_of_not_ready {now : Int} {url : String} {t : TokenState}
    (h : tokenReady now url t = false) :
    tokenWhen url t = (classLimit url t).reset_time ∧
      ∃ r, (classLimit url t).reset_time = some r := by
  unfold tokenReady at h
  cases hw : tokenWhen url t with
  | none => rw [hw] at h; cases h
  | some w =>
    rw [hw] at h
    have hw0 : ¬(w = 0 ∨ w ≤ now) := of_decide_eq_false h
    unfold tokenWhen at hw
    by_cases hr : (classLimit url t).remaining ≠ some 0
    · rw [if_pos hr] at hw
      cases hw
      exact absurd (Or.inl rfl) hw0
    · rw [if_neg hr] at hw
      exact ⟨hw.symm, w, hw⟩

/-- Lists of `when` values contain no `None` when no token is ready. -/
theorem whens_no_none {l : List (Option Int)} (h : ∀ x ∈ l, x ≠ none) :
    l.contains none = false := by
  induction l with
  | nil => rfl
  | cons a t ih =>
    have ha := h a (List.mem_cons_self a t)
    have ht := ih (fun x hx => h x (List.mem_cons_of_mem a hx))
    cases a with
    | none => exact absurd rfl ha
    | some v => simpa using ht

/-- Claim C5: when the pool is exhausted (no credential ready for the
request's rate class), `min(token.when(url) for token in self.tokens)` equals
the minimum reset time over the not-ready credentials — computed from the
not-ready credentials only, so it is unaffected by ready ones (there are
none). -/
theorem earliest_ready_min_reset (url : String) (now : Int) (tokens : List TokenState)
    (h0 : tokens ≠ [])
    (hall : ∀ t ∈ tokens, tokenReady now url t = false) :
    nextRes url tokens =
      (tokens.filterMap (fun t =>
        if tokenReady now url t then none else (classLimit url t).reset_time)).min? := by
  have hmap : tokens.map (tokenWhen url) =
      tokens.map (fun t => (classLimit url t).reset_time) :=
    List.map_congr_left (fun t ht => (tokenWhen_of_not_ready (hall t ht)).1)
  have hnone : ∀ x ∈ tokens.map (tokenWhen url), x ≠ none := by
    intro x hx
    rw [hmap] at hx
    obtain ⟨t, ht, rfl⟩ := List.mem_map.mp hx
    obtain ⟨r, hr⟩ := (tokenWhen_of_not_ready (hall t ht)).2
    rw [hr]
    exact Option.some_ne_none r
  simp only [nextRes]
  rw [whens_no_none hnone]
  simp only [Bool.false_eq_true, if_false]
  rw [hmap, List.filterMap_map]
  congr 1
  apply List.filterMap_congr
  intro t ht
  rw [if_neg (by rw [hall t ht]; exact Bool.false_ne_true)]
  rfl

/-- Witness for C5: two exhausted tokens with reset times 50 and 30 at time
10 give earliest ready time 30. -/
theorem earliest_ready_min_reset_w :
    nextRes "repos/x" [⟨⟨some 0, some 50, some 60⟩, freshRate⟩,
                       ⟨⟨some 0, some 30, some 60⟩, freshRate⟩] =
      ([⟨⟨some 0, some 50, some 60⟩, freshRate⟩,
        ⟨⟨some 0, some 30, some 60⟩, freshRate⟩].filterMap (fun t =>
          if tokenReady 10 "repos/x" t then none
          else (classLimit "repos/x" t).reset_time)).min? :=
  earliest_ready_min_reset "repos/x" 10 _ (by decide) (by decide)

/-- Counterexample for C8 as stated: a connection error during a dispatcher
call leaves the timeout counter at 0 — it is not incremented — and the call
then succeeds with the same credential on the next pass. -/
theorem timeout_counter_cex :
    GitHubAPI_request "repos/x" false [freshToken]
      [NetEvent.connError, NetEvent.resp 200 none [5] false] [] 1 2
    = (Outcome.ok [5], ⟨[freshToken], 1, 0, 1, [], [], [], []⟩) := by decide

/-- Claim C8, corrected.  First conjunct: a network-level timeout increments
the timeout counter and escalates fatally exactly when the counter exceeds
the pool size, otherwise moving on to the next credential.  Second conjunct:
a connection error moves on to the next credential without touching the
counter.  Third conjunct: with one credential, two timeouts escalate on the
second. -/
theorem timeout_counter_escalation :
    (∀ (url : String) (pg : Bool) (i : Nat) (rest : List Nat) (toks : List TokenState)
       (now : Int) (tc page : Nat) (acc : List Nat) (evs : List NetEvent)
       (rand : List Int) (trace : List Action) (tok : TokenState),
       toks.get? i = some tok → tokenReady now url tok = true →
       innerLoop url pg (i :: rest)
         ⟨toks, now, tc, page, acc, NetEvent.timeout :: evs, rand, trace⟩
       = if toks.length < tc + 1
         then InnerRes.ret Outcome.timeoutEsc
           ⟨toks.set i tok, now, tc + 1, page, acc, evs, rand, trace⟩
         else innerLoop url pg rest
           ⟨toks.set i tok, now, tc + 1, page, acc, evs, rand, trace⟩)
    ∧
    (∀ (url : String) (pg : Bool) (i : Nat) (rest : List Nat) (toks : List TokenState)
       (now : Int) (tc page : Nat) (acc : List Nat) (evs : List NetEvent)
       (rand : List Int) (trace : List Action) (tok : TokenState),
       toks.get? i = some tok → tokenReady now url tok = true →
       innerLoop url pg (i :: rest)
         ⟨toks, now, tc, page, acc, NetEvent.connError :: evs, rand, trace⟩
       = innerLoop url pg rest
           ⟨toks.set i tok, now, tc, page, acc, evs, rand, trace⟩)
    ∧
    (GitHubAPI_request "repos/x" false [freshToken]
       [NetEvent.timeout, NetEvent.timeout] [] 1 2).1 = Outcome.timeoutEsc := by
  refine ⟨?_, ?_, by decide⟩
  · intro url pg i rest toks now tc page acc evs rand trace tok hget hready
    simp only [innerLoop, hget, hready, if_true, tokenRequest, List.length_set]
  · intro url pg i rest toks now tc page acc evs rand trace tok hget hready
    simp only [innerLoop, hget, hready, if_true, tokenRequest]

/-- Witness for the corrected C8: both universal conjuncts instantiated at a
ready fresh token. -/
theorem timeout_counter_escalation_w :
    (innerLoop "repos/x" false [0]
       ⟨[freshToken], 1, 0, 1, [], [NetEvent.timeout], [], []⟩
     = if (1 : Nat) < 0 + 1
       then InnerRes.ret Outcome.timeoutEsc
         ⟨[freshToken].set 0 freshToken, 1, 0 + 1, 1, [], [], [], []⟩
       else innerLoop "repos/x" false []
         ⟨[freshToken].set 0 freshToken, 1, 0 + 1, 1, [], [], [], []⟩)
    ∧
    innerLoop "repos/x" false [0]
      ⟨[freshToken], 1, 0, 1, [], [NetEvent.connError], [], []⟩
    = innerLoop "repos/x" false []
        ⟨[freshToken].set 0 freshToken, 1, 0, 1, [], [], [], []⟩ :=
  ⟨timeout_counter_escalation.1 "repos/x" false 0 [] [freshToken] 1 0 1 [] [] [] []
     freshToken (by decide) (by decide),
   timeout_counter_escalation.2.1 "repos/x" false 0 [] [freshToken] 1 0 1 [] [] [] []
     freshToken (by decide) (by decide)⟩

/-- Claim C10: constructing `GitHubAPI` twice returns the same instance, and
through that shared instance all callers see one `tokens` pool (the one the
latest `__init__` installed); the class attribute `_instance` keeps naming
that same object. -/
theorem api_singleton_shared
    (h : PyHeap) (s1 s2 : List String) (r1 r2 : Nat) (h1 h2 : PyHeap)
    (hs1 : s1 ≠ []) (hs2 : s2 ≠ [])
    (hc1 : GitHubAPI_construct s1 h = .ok (r1, h1))
    (hc2 : GitHubAPI_construct s2 h1 = .ok (r2, h2)) :
    r1 = r2 ∧ getAttr h2 r1 = s2.map mkToken ∧ h2.instanceVar = some r1 := by
  unfold GitHubAPI_construct GitHubAPI_new GitHubAPI_init at hc1 hc2
  cases hiv : h.instanceVar with
  | some i =>
    simp only [hiv, if_neg hs1, Except.ok.injEq, Prod.mk.injEq] at hc1
    obtain ⟨hr1, hh1⟩ := hc1
    subst hr1
    subst hh1
    simp only [if_neg hs2, Except.ok.injEq, Prod.mk.injEq] at hc2
    obtain ⟨hr2, hh2⟩ := hc2
    subst hr2
    subst hh2
    refine ⟨rfl, ?_, rfl⟩
    simp [getAttr, List.lookup]
  | none =>
    simp only [hiv, if_neg hs1, Except.ok.injEq, Prod.mk.injEq] at hc1
    obtain ⟨hr1, hh1⟩ := hc1
    subst hr1
    subst hh1
    simp only [if_neg hs2, Except.ok.injEq, Prod.mk.injEq] at hc2
    obtain ⟨hr2, hh2⟩ := hc2
    subst hr2
    subst hh2
    refine ⟨rfl, ?_, rfl⟩
    simp [getAttr, List.lookup]

/- Pagination (claim C6). -/

theorem classLimit_fresh (url : String) : classLimit url freshToken = freshRate := by
  unfold classLimit freshToken
  split <;> rfl

theorem tokenWhen_fresh (url : String) : tokenWhen url freshToken = some 0 := by
  unfold tokenWhen
  rw [classLimit_fresh]
  simp [freshRate]

theorem tokenReady_fresh (now : Int) (url : String) :
    tokenReady now url freshToken = true := by
  unfold tokenReady
  rw [tokenWhen_fresh]
  simp

theorem nextRes_fresh (url : String) : nextRes url [freshToken] = some 0 := by
  unfold nextRes
  rw [List.map_cons, List.map_nil, tokenWhen_fresh]
  decide

/-- One successful 2xx page fetch under pagination: the body is accumulated,
and the loop either returns the accumulated result (empty body or no next
link) or moves to the next page. -/
theorem innerLoop_page_step
    (url : String) (i : Nat) (ridx : List Nat) (toks : List TokenState)
    (now : Int) (tc page : Nat) (acc body : List Nat) (next : Bool)
    (evs : List NetEvent) (rand : List Int) (trace : List Action) (tok : TokenState)
    (hget : toks.get? i = some tok) (hready : tokenReady now url tok = true) :
    innerLoop url true (i :: ridx)
      ⟨toks, now, tc, page, acc, NetEvent.resp 200 none body next :: evs, rand, trace⟩
    = if body = [] ∨ next = false
      then InnerRes.ret (Outcome.ok (acc ++ body))
        ⟨toks.set i tok, now, tc, page, acc ++ body, evs, rand, trace⟩
      else innerLoop url true ridx
        ⟨toks.set i tok, now, tc, page + 1, acc ++ body, evs, rand, trace⟩ := by
  simp only [innerLoop, hget, hready, if_true, tokenRequest, applyHeaders]
  norm_num

/-- Claim C6: over a finite synthetic response sequence whose non-final pages
carry next links and non-empty bodies and whose final page terminates the
loop (no next link or empty body, whichever comes first), the paginated
dispatcher fetches exactly those pages — consuming exactly that many script
events and leaving the rest — and returns the concatenation of all fetched
page bodies in fetch order, appended to the accumulator. -/
theorem pagination_concat (url : String) (pages : List (List Nat × Bool))
    (rest : List NetEvent) (rand : List Int) (trace : List Action)
    (tc page : Nat) (acc : List Nat) (now : Int) (fuel : Nat)
    (hg : goodPages pages = true) (hnow : 1 ≤ now) (hf : pages.length ≤ fuel) :
    outerLoop url true fuel
      ⟨[freshToken], now, tc, page, acc, pages.map pageEv ++ rest, rand, trace⟩
    = (Outcome.ok (acc ++ concatBodies pages),
       ⟨[freshToken], now, tc, page + (pages.length - 1), acc ++ concatBodies pages,
        rest, rand, trace⟩) := by
  induction pages generalizing page acc fuel with
  | nil => cases hg
  | cons p ps ih =>
    cases fuel with
    | zero => simp at hf
    | succ f =>
      have hrange : List.range (([freshToken] : List TokenState).length) = [0] := by
        simp [List.range_succ]
      cases ps with
      | nil =>
        have hterm : p.1 = [] ∨ p.2 = false := by
          simp only [goodPages, Bool.or_eq_true, Bool.not_eq_true'] at hg
          rcases hg with hg | hg
          · exact Or.inl (by simpa using hg)
          · exact Or.inr hg
        simp only [outerLoop, hrange, List.map_cons, List.map_nil, List.nil_append,
          List.cons_append, pageEv]
        rw [innerLoop_page_step url 0 [] [freshToken] now tc page acc p.1 p.2 rest rand
          trace freshToken rfl (tokenReady_fresh now url)]
        rw [if_pos hterm]
        simp [concatBodies]
      | cons q qs =>
        have hg2 : (p.1.isEmpty = false ∧ p.2 = true) ∧ goodPages (q :: qs) = true := by
          simpa [goodPages, Bool.and_eq_true, Bool.not_eq_true'] using hg
        have hpne : p.1 ≠ [] := by
          intro hc
          rw [hc] at hg2
          simp at hg2
        have hterm : ¬(p.1 = [] ∨ p.2 = false) := by
          rintro (hc | hc)
          · exact hpne hc
          · rw [hg2.1.2] at hc; cases hc
        have harith : page + ((p :: q :: qs).length - 1) = page + 1 + ((q :: qs).length - 1) := by
          simp only [List.length_cons]
          omega
        have hcb : acc ++ concatBodies (p :: q :: qs) = acc ++ p.1 ++ concatBodies (q :: qs) := by
          simp [concatBodies, List.append_assoc]
        rw [harith, hcb]
        simp only [outerLoop, hrange, List.map_cons, List.cons_append, pageEv]
        rw [innerLoop_page_step url 0 [] [freshToken] now tc page acc p.1 p.2
          (NetEvent.resp 200 none q.1 q.2 :: (List.map pageEv qs ++ rest)) rand trace
          freshToken rfl (tokenReady_fresh now url)]
        rw [if_neg hterm]
        simp only [innerLoop, List.set_cons_zero, nextRes_fresh]
        have hsleep : ¬(0 : Int) < 0 - now + 1 := by omega
        rw [if_neg hsleep]
        have ihq := ih (page + 1) (acc ++ p.1) f hg2.2 (by
          simp only [List.length_cons] at hf ⊢
          omega)
        simp only [List.map_cons, List.cons_append, pageEv] at ihq
        exact ihq

/-- Witness for C6: next links on pages 1 and 2 and none on page 3 yield
exactly three fetched pages (one unconsumed event remains) and the
concatenated bodies. -/
theorem pagination_concat_w :
    outerLoop "repos/x" true 3
      ⟨[freshToken], 1, 0, 1, [],
       [([1, 2], true), ([3], true), ([4], false)].map pageEv ++ [NetEvent.timeout],
       [], []⟩
    = (Outcome.ok [1, 2, 3, 4],
       ⟨[freshToken], 1, 0, 3, [1, 2, 3, 4], [NetEvent.timeout], [], []⟩) :=
  pagination_concat "repos/x" [([1, 2], true), ([3], true), ([4], false)]
    [NetEvent.timeout] [] [] 0 1 [] 1 3 (by decide) (by decide) (by decide)

/- Symbolic parsing of a single hunk header `@@ -a +b @@`. -/

theorem charOK_ne {c : Char} (h : charOK c = true) :
    c ≠ '-' ∧ c ≠ '+' ∧ c ≠ '\n' ∧ c ≠ '@' ∧ c ≠ ' ' ∧ isPyWs c = false := by
  have hcase : c.isDigit = true ∨ c = ',' := by
    unfold charOK at h
    simp only [Bool.or_eq_true, beq_iff_eq] at h
    exact h
  rcases hcase with hd | hc
  · have hne : ∀ d : Char, d.isDigit = false → c ≠ d := by
      intro d hd2 hcd
      rw [hcd, hd2] at hd
      cases hd
    refine ⟨hne '-' (by decide), hne '+' (by decide), hne '\n' (by decide),
      hne '@' (by decide), hne ' ' (by decide), ?_⟩
    unfold isPyWs
    rw [beq_eq_false_iff_ne.mpr (hne ' ' (by decide)),
        beq_eq_false_iff_ne.mpr (hne '\t' (by decide)),
        beq_eq_false_iff_ne.mpr (hne '\n' (by decide)),
        beq_eq_false_iff_ne.mpr (hne '\r' (by decide)),
        beq_eq_false_iff_ne.mpr (hne '\x0b' (by decide)),
        beq_eq_false_iff_ne.mpr (hne '\x0c' (by decide))]
    rfl
  · subst hc
    exact ⟨by decide, by decide, by decide, by decide, by decide, by decide⟩

theorem digit_charOK {c : Char} (h : c.isDigit = true) : charOK c = true := by
  unfold charOK
  rw [h]
  rfl

theorem scanChar_hit (t : Char) (r : List Char) : scanChar t (t :: r) = some ([t], r) := by
  simp [scanChar]

theorem scanChar_miss {c t : Char} (h1 : c ≠ t) (h2 : c ≠ '\n') (r : List Char) :
    scanChar t (c :: r) = (scanChar t r).map (fun pr => (c :: pr.1, pr.2)) := by
  simp only [scanChar]
  rw [if_neg h1, if_neg h2]

theorem scanChar_skip {t : Char} :
    ∀ {l : List Char}, (∀ c ∈ l, c ≠ t ∧ c ≠ '\n') → ∀ r : List Char,
      scanChar t (l ++ r) = (scanChar t r).map (fun pr => (l ++ pr.1, pr.2)) := by
  intro l
  induction l with
  | nil =>
    intro _ r
    rw [List.nil_append]
    cases hr : scanChar t r with
    | none => rfl
    | some pr => cases pr; rfl
  | cons c cs ih =>
    intro h r
    have hc := h c (List.mem_cons_self c cs)
    rw [List.cons_append, scanChar_miss hc.1 hc.2,
      ih (fun x hx => h x (List.mem_cons_of_mem c hx)) r]
    cases hr : scanChar t r with
    | none => rfl
    | some pr => cases pr; rfl

theorem scanAts_hit (r : List Char) : scanAts ('@' :: '@' :: r) = some (['@', '@'], r) := by
  simp [scanAts]

theorem scanAts_miss {c : Char} {r : List Char}
    (h1 : ¬(c = '@' ∧ r.head? = some '@')) (h2 : c ≠ '\n') :
    scanAts (c :: r) = (scanAts r).map (fun pr => (c :: pr.1, pr.2)) := by
  simp only [scanAts]
  rw [if_neg h1, if_neg h2]

theorem scanAts_skip :
    ∀ {l : List Char}, (∀ c ∈ l, c ≠ '@' ∧ c ≠ '\n') → ∀ r : List Char,
      scanAts (l ++ r) = (scanAts r).map (fun pr => (l ++ pr.1, pr.2)) := by
  intro l
  induction l with
  | nil =>
    intro _ r
    rw [List.nil_append]
    cases hr : scanAts r with
    | none => rfl
    | some pr => cases pr; rfl
  | cons c cs ih =>
    intro h r
    have hc := h c (List.mem_cons_self c cs)
    rw [List.cons_append, scanAts_miss (fun hx => hc.1 hx.1) hc.2,
      ih (fun x hx => h x (List.mem_cons_of_mem c hx)) r]
    cases hr : scanAts r with
    | none => rfl
    | some pr => cases pr; rfl

theorem matchAt_header (a b tail : List Char)
    (ha : ∀ c ∈ a, charOK c = true) (hb : ∀ c ∈ b, charOK c = true) :
    matchAt (hdrChars a b ++ tail) = some (hdrChars a b, tail) := by
  have ha' : ∀ c ∈ a, c ≠ '+' ∧ c ≠ '\n' := fun c hc =>
    ⟨(charOK_ne (ha c hc)).2.1, (charOK_ne (ha c hc)).2.2.1⟩
  have hb' : ∀ c ∈ b, c ≠ '@' ∧ c ≠ '\n' := fun c hc =>
    ⟨(charOK_ne (hb c hc)).2.2.2.1, (charOK_ne (hb c hc)).2.2.1⟩
  have hshape : hdrChars a b ++ tail =
      '@' :: '@' :: (' ' :: '-' :: (a ++ ' ' :: '+' :: (b ++ ' ' :: '@' :: '@' :: tail))) := by
    simp [hdrChars, List.cons_append, List.append_assoc]
  rw [hshape]
  rw [show ∀ cs : List Char, matchAt ('@' :: '@' :: cs) =
      (match scanChar '-' cs with
       | none => none
       | some (p1, r1) =>
         match scanChar '+' r1 with
         | none => none
         | some (p2, r2) =>
           match scanAts r2 with
           | none => none
           | some (p3, r3) => some ('@' :: '@' :: (p1 ++ p2 ++ p3), r3))
    from fun cs => by simp [matchAt]]
  rw [scanChar_miss (by decide) (by decide), scanChar_hit]
  simp only [Option.map_some']
  rw [scanChar_skip ha', scanChar_miss (by decide) (by decide), scanChar_hit]
  simp only [Option.map_some']
  rw [scanAts_skip hb', scanAts_miss (fun hx => absurd hx.1 (by decide)) (by decide),
    scanAts_hit]
  simp only [Option.map_some', Option.some.injEq, Prod.mk.injEq]
  simp [hdrChars, List.cons_append, List.append_assoc]

theorem reSplit_header (a b : List Char)
    (ha : ∀ c ∈ a, charOK c = true) (hb : ∀ c ∈ b, charOK c = true) :
    reSplit (hdrChars a b ++ ['\n']) = [[], hdrChars a b, ['\n']] := by
  unfold reSplit
  rw [reSplitF_match (Nat.lt_succ_self _) (matchAt_header a b ['\n'] ha hb)]
  rw [reSplitF_nomatch (by decide) (by decide)]
  rw [reSplitF_nil (by decide)]
  rfl

theorem stripBack_append_ws {l : List Char} {c : Char} (hc : isPyWs c = true) :
    stripBack (l ++ [c]) = stripBack l := by
  unfold stripBack
  have hrev : (l ++ [c]).reverse = c :: l.reverse := by simp
  rw [hrev, List.dropWhile_cons, if_pos hc]

theorem stripBack_eq_self {l : List Char}
    (h : ∀ c, l.getLast? = some c → isPyWs c = false) :
    stripBack l = l := by
  unfold stripBack
  cases hr : l.reverse with
  | nil =>
    have hl : l = [] := by simpa using congrArg List.reverse hr
    rw [hl]
    rfl
  | cons d ds =>
    have hd : l.getLast? = some d := by
      rw [← List.head?_reverse, hr]
      rfl
    rw [List.dropWhile_cons, if_neg (by rw [h d hd]; exact Bool.false_ne_true)]
    rw [← hr, List.reverse_reverse]

theorem pySplitOn_no_sep {sep : Char} :
    ∀ {l : List Char}, (∀ c ∈ l, c ≠ sep) → pySplitOn sep l = [l] := by
  intro l
  induction l with
  | nil => intro _; rfl
  | cons c cs ih =>
    intro h
    unfold pySplitOn
    rw [if_neg (h c (List.mem_cons_self c cs)),
      ih (fun x hx => h x (List.mem_cons_of_mem c hx))]

theorem pySplitOn_append {sep : Char} :
    ∀ {x : List Char}, (∀ c ∈ x, c ≠ sep) → ∀ y : List Char,
      pySplitOn sep (x ++ sep :: y) = x :: pySplitOn sep y := by
  intro x
  induction x with
  | nil =>
    intro _ y
    show pySplitOn sep (sep :: y) = [] :: pySplitOn sep y
    conv_lhs => rw [pySplitOn]
    rw [if_pos rfl]
  | cons c cs ih =>
    intro h y
    show pySplitOn sep (c :: (cs ++ sep :: y)) = (c :: cs) :: pySplitOn sep y
    conv_lhs => rw [pySplitOn]
    rw [if_neg (h c (List.mem_cons_self c cs)),
      ih (fun x hx => h x (List.mem_cons_of_mem c hx)) y]

theorem splitTokens_header (a b : List Char)
    (ha : ∀ c ∈ a, charOK c = true) (hb : ∀ c ∈ b, charOK c = true) (hb0 : b ≠ []) :
    splitTokens (hdrChars a b) = ['-' :: a, '+' :: b] := by
  have hfa : a.filter (fun c => !(c == '@')) = a :=
    List.filter_eq_self.mpr (fun c hc => by
      rw [beq_eq_false_iff_ne.mpr (charOK_ne (ha c hc)).2.2.2.1]
      rfl)
  have hfb : b.filter (fun c => !(c == '@')) = b :=
    List.filter_eq_self.mpr (fun c hc => by
      rw [beq_eq_false_iff_ne.mpr (charOK_ne (hb c hc)).2.2.2.1]
      rfl)
  have hfilter : (hdrChars a b).filter (fun c => !(c == '@')) =
      ' ' :: '-' :: (a ++ ' ' :: '+' :: (b ++ [' '])) := by
    simp only [hdrChars, List.filter_cons, List.filter_append, hfa, hfb,
      (by decide : (('@' : Char) == '@') = true),
      (by decide : ((' ' : Char) == '@') = false),
      (by decide : (('-' : Char) == '@') = false),
      (by decide : (('+' : Char) == '@') = false)]
    rfl
  obtain ⟨L, e, rfl⟩ : ∃ L e, b = L ++ [e] := by
    rcases List.eq_nil_or_concat b with hb1 | ⟨L, e, hLe⟩
    · exact absurd hb1 hb0
    · exact ⟨L, e, by rw [hLe, List.concat_eq_append]⟩
  have he : charOK e = true := hb e (by simp)
  have hstrip : pyStrip (' ' :: '-' :: (a ++ ' ' :: '+' :: ((L ++ [e]) ++ [' ']))) =
      '-' :: (a ++ ' ' :: '+' :: (L ++ [e])) := by
    unfold pyStrip stripFront
    rw [List.dropWhile_cons, if_pos (by decide : isPyWs ' ' = true)]
    rw [List.dropWhile_cons, if_neg (by decide : ¬ isPyWs '-' = true)]
    have hshape : ('-' :: (a ++ ' ' :: '+' :: ((L ++ [e]) ++ [' ']))) =
        ('-' :: (a ++ ' ' :: '+' :: (L ++ [e]))) ++ [' '] := by
      simp [List.cons_append, List.append_assoc]
    rw [hshape, stripBack_append_ws (by decide)]
    apply stripBack_eq_self
    intro c hc
    have hY : ('-' :: (a ++ ' ' :: '+' :: (L ++ [e]))) =
        ('-' :: (a ++ ' ' :: '+' :: L)) ++ [e] := by
      simp [List.cons_append, List.append_assoc]
    rw [hY] at hc
    simp only [List.getLast?_concat, Option.some.injEq] at hc
    subst hc
    exact (charOK_ne he).2.2.2.2.2
  have hsplit : pySplitOn ' ' ('-' :: (a ++ ' ' :: '+' :: (L ++ [e]))) =
      ['-' :: a, '+' :: (L ++ [e])] := by
    have hx : ∀ c ∈ '-' :: a, c ≠ ' ' := by
      intro c hc
      rcases List.mem_cons.mp hc with rfl | hc
      · decide
      · exact (charOK_ne (ha c hc)).2.2.2.2.1
    have hy : ∀ c ∈ '+' :: (L ++ [e]), c ≠ ' ' := by
      intro c hc
      rcases List.mem_cons.mp hc with rfl | hc
      · decide
      · exact (charOK_ne (hb c hc)).2.2.2.2.1
    have hshape2 : ('-' :: (a ++ ' ' :: '+' :: (L ++ [e]))) =
        ('-' :: a) ++ ' ' :: ('+' :: (L ++ [e])) := by
      simp [List.cons_append]
    rw [hshape2, pySplitOn_append hx, pySplitOn_no_sep hy]
  unfold splitTokens
  rw [hfilter, hstrip, hsplit]

theorem rangeFields_no {c : Char} {r : List Char} (h : (',' : Char) ∉ c :: r) :
    rangeFields (c :: r) = some (none, r) := by
  unfold rangeFields
  rw [show (c :: r).contains ',' = false from by simpa using h]
  rfl

theorem rangeFields_comma (c : Char) {x y : List Char}
    (hx : ∀ d ∈ x, d ≠ ',') (hy : ∀ d ∈ y, d ≠ ',') :
    rangeFields (c :: (x ++ ',' :: y)) = some (some x, y) := by
  unfold rangeFields
  rw [show (c :: (x ++ ',' :: y)).contains ',' = true from by
    simpa using Or.inr (Or.inr rfl)]
  simp only [List.drop_succ_cons, List.drop_zero]
  rw [pySplitOn_append hx y, pySplitOn_no_sep hy]
  simp

theorem digit_ne_comma {c : Char} (h : c.isDigit = true) : c ≠ ',' := by
  intro hc
  rw [hc] at h
  cases h

theorem pyStrip_digits {l : List Char} (h : ∀ c ∈ l, c.isDigit = true) :
    pyStrip l = l := by
  unfold pyStrip stripFront
  have hdw : List.dropWhile isPyWs l = l := by
    cases l with
    | nil => rfl
    | cons c cs =>
      rw [List.dropWhile_cons,
        if_neg (by
          rw [(charOK_ne (digit_charOK (h c (List.mem_cons_self c cs)))).2.2.2.2.2]
          exact Bool.false_ne_true)]
  rw [hdw]
  apply stripBack_eq_self
  intro c hc
  rcases List.eq_nil_or_concat l with hl | ⟨L, e, hLe⟩
  · rw [hl] at hc; cases hc
  · rw [hLe, List.concat_eq_append] at hc
    simp only [List.getLast?_concat, Option.some.injEq] at hc
    have he : e ∈ l := by rw [hLe, List.concat_eq_append]; simp
    rw [hc] at he
    exact (charOK_ne (digit_charOK (h c he))).2.2.2.2.2

theorem pyInt_digits {l : List Char} (h0 : l ≠ []) (h : ∀ c ∈ l, c.isDigit = true) :
    pyInt l = some ((digitsVal l : Nat) : Int) := by
  cases l with
  | nil => exact absurd rfl h0
  | cons c cs =>
    have hc := h c (List.mem_cons_self c cs)
    have hcm : c ≠ '-' := by intro he; rw [he] at hc; cases hc
    have hcp : c ≠ '+' := by intro he; rw [he] at hc; cases hc
    unfold pyInt
    rw [pyStrip_digits h]
    simp only [if_neg hcm, if_neg hcp, if_pos (List.all_eq_true.mpr h)]

theorem processHunk_header (a b : List Char) (acc : DiffAcc)
    (ha : ∀ c ∈ a, charOK c = true) (hb : ∀ c ∈ b, charOK c = true) (hb0 : b ≠ [])
    {af df : Option (List Char) × List Char} {la na ld nd : Int}
    (haf : rangeFields ('+' :: b) = some af) (hdf : rangeFields ('-' :: a) = some df)
    (hla : locFieldInt af.1 = some la) (hna : pyInt af.2 = some na)
    (hld : locFieldInt df.1 = some ld) (hnd : pyInt df.2 = some nd) :
    processHunk acc (hdrChars a b, ['\n']) =
      { accumulateBody acc ['\n'] with
        add_location_set := (accumulateBody acc ['\n']).add_location_set ++ [(la, na)]
        del_location_set := (accumulateBody acc ['\n']).del_location_set ++ [(ld, nd)] } := by
  have hsw : swapRanges ('-' :: a) ('+' :: b) = ('+' :: b, '-' :: a) := by
    unfold swapRanges
    rw [if_pos ⟨by simpa using Or.inl rfl, by simpa using Or.inl rfl⟩]
  simp only [processHunk, splitTokens_header a b ha hb hb0]
  rw [if_neg (by decide : ¬ 100 * 1024 ≤ List.length ['\n'])]
  simp only [hsw, haf, hdf, hla, hna, hld, hnd]

/-- Claim C1, corrected: for every hunk header both of whose ranges omit the
length (`@@ -a +b @@` with `a`, `b` non-empty digit strings), `parse_diff`
records that side with start `0` and the number after the sign taken as the
length — the add side becomes `(0, b)` and the delete side `(0, a)` — not
start `a` with length defaulting to 1. -/
theorem parse_diff_omitted_length_zero_start (nm a b : List Char)
    (ha0 : a ≠ []) (hb0 : b ≠ [])
    (ha : ∀ c ∈ a, c.isDigit = true) (hb : ∀ c ∈ b, c.isDigit = true) :
    parse_diff nm (hdrChars a b ++ ['\n']) =
      ⟨nm, 0, 0, [(0, ((digitsVal b : Nat) : Int))], [(0, ((digitsVal a : Nat) : Int))],
       ['\n'], ['\n']⟩ := by
  have ha' : ∀ c ∈ a, charOK c = true := fun c hc => digit_charOK (ha c hc)
  have hb' : ∀ c ∈ b, charOK c = true := fun c hc => digit_charOK (hb c hc)
  have hbc : (',' : Char) ∉ '+' :: b := by
    intro hm
    rcases List.mem_cons.mp hm with hm | hm
    · cases hm
    · exact digit_ne_comma (hb ',' hm) rfl
  have hac : (',' : Char) ∉ '-' :: a := by
    intro hm
    rcases List.mem_cons.mp hm with hm | hm
    · cases hm
    · exact digit_ne_comma (ha ',' hm) rfl
  unfold parse_diff
  rw [reSplit_header a b ha' hb']
  simp only [List.drop_succ_cons, List.drop_zero, pairUp, processHunks, List.foldl_cons,
    List.foldl_nil]
  rw [processHunk_header a b initAcc ha' hb' hb0 (rangeFields_no hbc) (rangeFields_no hac)
    rfl (pyInt_digits hb0 hb) rfl (pyInt_digits ha0 ha)]
  rw [show accumulateBody initAcc ['\n'] = ⟨['\n'], ['\n'], 0, 0, [], []⟩ from by decide]
  rfl

/-- Witness for the corrected C1 at the header `@@ -5 +7 @@`. -/
theorem parse_diff_omitted_length_zero_start_w :
    parse_diff "f".toList (hdrChars ['5'] ['7'] ++ ['\n']) =
      ⟨"f".toList, 0, 0, [(0, 7)], [(0, 5)], ['\n'], ['\n']⟩ :=
  parse_diff_omitted_length_zero_start "f".toList ['5'] ['7']
    (by decide) (by decide) (by decide) (by decide)

/-- Claim C2, corrected: for every valid hunk header that lists the `-` range
first — the only order the splitter's pattern recognises — `parse_diff`
assigns the ranges by sign via the branch-correcting swap: the delete side
receives `(S1, L1)` and the add side `(S2, L2)`.  Headers listing the `+`
range first are not recognised as hunk headers at all (see the
counterexample), so the statistics are not independent of the order in the
raw header text. -/
theorem parse_diff_sign_assignment (nm s1 l1 s2 l2 : List Char)
    (hs10 : s1 ≠ []) (hl10 : l1 ≠ []) (hs20 : s2 ≠ []) (hl20 : l2 ≠ [])
    (hs1 : ∀ c ∈ s1, c.isDigit = true) (hl1 : ∀ c ∈ l1, c.isDigit = true)
    (hs2 : ∀ c ∈ s2, c.isDigit = true) (hl2 : ∀ c ∈ l2, c.isDigit = true) :
    parse_diff nm (hdrChars (s1 ++ ',' :: l1) (s2 ++ ',' :: l2) ++ ['\n']) =
      ⟨nm, 0, 0,
       [(((digitsVal s2 : Nat) : Int), ((digitsVal l2 : Nat) : Int))],
       [(((digitsVal s1 : Nat) : Int), ((digitsVal l1 : Nat) : Int))],
       ['\n'], ['\n']⟩ := by
  have hcomma : charOK ',' = true := by decide
  have ha' : ∀ c ∈ s1 ++ ',' :: l1, charOK c = true := by
    intro c hc
    rcases List.mem_append.mp hc with hc | hc
    · exact digit_charOK (hs1 c hc)
    · rcases List.mem_cons.mp hc with rfl | hc
      · exact hcomma
      · exact digit_charOK (hl1 c hc)
  have hb' : ∀ c ∈ s2 ++ ',' :: l2, charOK c = true := by
    intro c hc
    rcases List.mem_append.mp hc with hc | hc
    · exact digit_charOK (hs2 c hc)
    · rcases List.mem_cons.mp hc with rfl | hc
      · exact hcomma
      · exact digit_charOK (hl2 c hc)
  have hb0 : s2 ++ ',' :: l2 ≠ [] := by
    intro hc
    cases s2 <;> cases hc
  unfold parse_diff
  rw [reSplit_header _ _ ha' hb']
  simp only [List.drop_succ_cons, List.drop_zero, pairUp, processHunks, List.foldl_cons,
    List.foldl_nil]
  rw [processHunk_header _ _ initAcc ha' hb' hb0
    (rangeFields_comma '+' (fun d hd => digit_ne_comma (hs2 d hd))
      (fun d hd => digit_ne_comma (hl2 d hd)))
    (rangeFields_comma '-' (fun d hd => digit_ne_comma (hs1 d hd))
      (fun d hd => digit_ne_comma (hl1 d hd)))
    (pyInt_digits hs20 hs2) (pyInt_digits hl20 hl2)
    (pyInt_digits hs10 hs1) (pyInt_digits hl10 hl1)]
  rw [show accumulateBody initAcc ['\n'] = ⟨['\n'], ['\n'], 0, 0, [], []⟩ from by decide]
  rfl

/-- Witness for the corrected C2 at the header `@@ -1,2 +3,4 @@`. -/
theorem parse_diff_sign_assignment_w :
    parse_diff "f".toList (hdrChars "1,2".toList "3,4".toList ++ ['\n']) =
      ⟨"f".toList, 0, 0, [(3, 4)], [(1, 2)], ['\n'], ['\n']⟩ :=
  parse_diff_sign_assignment "f".toList ['1'] ['2'] ['3'] ['4']
    (by decide) (by decide) (by decide) (by decide)
    (by decide) (by decide) (by decide) (by decide)

/-- Witness for C10: two constructions from an empty heap return the same
object (identity 0) sharing the pool installed by the second `__init__`. -/
theorem api_singleton_shared_w :
    (0 : Nat) = 0 ∧
    getAttr ⟨1, some 0, [(0, [mkToken "b"]), (0, [mkToken "a"])]⟩ 0 = ["b"].map mkToken ∧
    (⟨1, some 0, [(0, [mkToken "b"]), (0, [mkToken "a"])]⟩ : PyHeap).instanceVar = some 0 :=
  api_singleton_shared ⟨0, none, []⟩ ["a"] ["b"] 0 0
    ⟨1, some 0, [(0, [mkToken "a"])]⟩ ⟨1, some 0, [(0, [mkToken "b"]), (0, [mkToken "a"])]⟩
    (by decide) (by decide) rfl rfl

end GH
